import Mathlib

/-!
Shallow embedding of the mmspd-explorer-uploader repository
(`src/openrank/mmspd/exploreruploader/cmd/run.py` and
`src/openrank/mmspd/exploreruploader/cmd/__init__.py`).

Timestamps are modelled as integers of microseconds since the Unix epoch
(the precision of Python `datetime`); machine-level floating point in
`ts.timestamp() * 1000` is modelled exactly at microsecond precision.
Fallible Python code (exceptions) is modelled with `Option` / `Except`.
The `asyncio` queue, the uploader worker pool and the filesystem walker
are modelled as explicit transition systems further below.
-/

namespace Mmspd

/-- Decimal digits of a natural number, little-endian.  The first argument is
structural fuel so that the kernel can evaluate the function; calling it with
fuel `n` on input `n` yields the digits of `n`.  Used to model Python
`str(int)` (f-string interpolation in `run.py` line 132 and `str(ts)` in
line 140). -/
def natDigitsLE : ℕ → ℕ → List ℕ
  | 0, _ => []
  | fuel + 1, n => if n = 0 then [] else n % 10 :: natDigitsLE fuel (n / 10)

/-- Characters of Python `str` of a natural number (decimal, no sign, no
padding). -/
def pyNatChars (n : ℕ) : List Char :=
  if n = 0 then ['0'] else (natDigitsLE n n).reverse.map Nat.digitChar

/-- Python `str` of a natural number. -/
def pyNatStr (n : ℕ) : String := ⟨pyNatChars n⟩

/-- Characters of Python `str` of an `int`: optional leading minus sign
followed by the decimal digits of the absolute value. -/
def pyStrChars (i : ℤ) : List Char :=
  if i < 0 then '-' :: pyNatChars i.natAbs else pyNatChars i.natAbs

/-- Python `str` of an `int` (used for `f'files/{ts0}/...'` and
`[str(ts) for ts in ...]`). -/
def pyStr (i : ℤ) : String := ⟨pyStrChars i⟩

/-- Value of a nonempty list of decimal digit characters.  Returns `none` if
the list is empty or contains a non-digit. -/
def decDigitsVal? (cs : List Char) : Option ℕ :=
  if cs = [] then none
  else cs.foldlM (fun acc c => if c.isDigit then some (acc * 10 + (c.toNat - 48)) else none) 0

/-- Model of Python `int(s)` on the strings this program feeds it (file name
stems, `run.py` line 100): an optional sign followed by decimal digits.
`none` models `ValueError`.  (Surrounding whitespace and underscore digit
grouping, which CPython also accepts, are not modelled.) -/
def pyInt? (s : String) : Option ℤ :=
  match s.toList with
  | '-' :: cs => (decDigitsVal? cs).map (fun n => -(n : ℤ))
  | '+' :: cs => (decDigitsVal? cs).map (fun n => (n : ℤ))
  | cs => (decDigitsVal? cs).map (fun n => (n : ℤ))

/-- Numeric value of a decimal digit character. -/
def digVal (c : Char) : ℕ := c.toNat - 48

/-- Parse one or two decimal digits greedily (the behaviour of the
`strptime` field directives `%m`, `%d`, `%H`, `%M`, `%S`, whose regexes
accept one or two digits; out-of-range values are rejected by the caller,
which matches `strptime`, where the regex alternation falls back to one
digit only when the next character is not a digit). -/
def take2? : List Char → Option (ℕ × List Char)
  | c1 :: c2 :: rest =>
    if c1.isDigit then
      if c2.isDigit then some (10 * digVal c1 + digVal c2, rest)
      else some (digVal c1, c2 :: rest)
    else none
  | [c1] => if c1.isDigit then some (digVal c1, []) else none
  | [] => none

/-- Parse exactly two decimal digits (used inside the `%z` offset). -/
def take2exact? : List Char → Option (ℕ × List Char)
  | c1 :: c2 :: rest =>
    if c1.isDigit && c2.isDigit then some (10 * digVal c1 + digVal c2, rest) else none
  | _ => none

/-- Parse exactly four decimal digits (the `strptime` directive `%Y`). -/
def take4? : List Char → Option (ℕ × List Char)
  | a :: b :: c :: d :: rest =>
    if a.isDigit && b.isDigit && c.isDigit && d.isDigit then
      some (1000 * digVal a + 100 * digVal b + 10 * digVal c + digVal d, rest)
    else none
  | _ => none

/-- Expect a fixed literal character. -/
def expectChar (c : Char) : List Char → Option (List Char)
  | d :: rest => if d = c then some rest else none
  | [] => none

/-- Gregorian leap year test (as used by Python `datetime`). -/
def isLeapYear (y : ℕ) : Bool :=
  y % 4 == 0 && (y % 100 != 0 || y % 400 == 0)

/-- Number of days in a month (Python `datetime` constructor validation). -/
def daysInMonth (y m : ℕ) : ℕ :=
  if m = 2 then (if isLeapYear y then 29 else 28)
  else if m = 4 ∨ m = 6 ∨ m = 9 ∨ m = 11 then 30
  else 31

/-- Days since 1970-01-01 of a Gregorian civil date (the arithmetic that
`datetime.timestamp()` performs for an aware datetime). -/
def daysFromCivil (y m d : ℤ) : ℤ :=
  let y' := if m ≤ 2 then y - 1 else y
  let era := Int.fdiv y' 400
  let yoe := y' - era * 400
  let mp := Int.emod (m + 9) 12
  let doy := Int.fdiv (153 * mp + 2) 5 + d - 1
  let doe := yoe * 365 + Int.fdiv yoe 4 - Int.fdiv yoe 100 + doy
  era * 146097 + doe - 719468

/-- Parse a `%z` UTC offset covering the forms this program can meet:
`±HHMM`, `±HH:MM`, or literal `Z`.  Returns the offset in seconds and
requires the input to be fully consumed (strptime rejects trailing
characters as unconverted data).  `none` models `ValueError`.
(The rare seconds-bearing offset forms of `%z` are not modelled.) -/
def parseTzOffset? : List Char → Option ℤ
  | ['Z'] => some 0
  | c :: rest =>
    if c = '+' ∨ c = '-' then
      match take2exact? rest with
      | none => none
      | some (hh, r1) =>
        let r2 := match r1 with
          | ':' :: t => t
          | _ => r1
        match take2exact? r2 with
        | none => none
        | some (mm, r3) =>
          if r3 = [] ∧ hh ≤ 23 ∧ mm ≤ 59 then
            let off : ℤ := (hh : ℤ) * 3600 + (mm : ℤ) * 60
            some (if c = '-' then -off else off)
          else none
    else none
  | [] => none

/-- Parse the common `YYYY-MM-DDThh:mm:ss` part of both accepted formats
and return the naive (offset-free) seconds since the epoch together with
the unconsumed remainder. -/
def parseBase? (cs : List Char) : Option (ℤ × List Char) := do
  let (y, r) ← take4? cs
  let r ← expectChar '-' r
  let (mo, r) ← take2? r
  let r ← expectChar '-' r
  let (d, r) ← take2? r
  let r ← expectChar 'T' r
  let (h, r) ← take2? r
  let r ← expectChar ':' r
  let (mi, r) ← take2? r
  let r ← expectChar ':' r
  let (s, r) ← take2? r
  if 1 ≤ y ∧ 1 ≤ mo ∧ mo ≤ 12 ∧ 1 ≤ d ∧ d ≤ daysInMonth y mo ∧ h ≤ 23 ∧ mi ≤ 59 ∧ s ≤ 59 then
    some (daysFromCivil (y : ℤ) (mo : ℤ) (d : ℤ) * 86400
            + (h : ℤ) * 3600 + (mi : ℤ) * 60 + (s : ℤ), r)
  else none

/-- Parse the fractional-second field `%f`: one to six decimal digits,
scaled to microseconds. -/
def takeFrac? (cs : List Char) : Option (ℕ × List Char) :=
  let ds := cs.takeWhile Char.isDigit
  let rest := cs.dropWhile Char.isDigit
  if 1 ≤ ds.length ∧ ds.length ≤ 6 then
    some ((ds.foldl (fun a c => a * 10 + digVal c) 0) * 10 ^ (6 - ds.length), rest)
  else none

/-- Attempt `datetime.strptime(s, '%Y-%m-%dT%H:%M:%S.%f%z')`, returning the
instant in microseconds since the epoch. -/
def parseWithFrac? (s : String) : Option ℤ := do
  let (base, r) ← parseBase? s.toList
  let r ← expectChar '.' r
  let (frac, r) ← takeFrac? r
  let off ← parseTzOffset? r
  some ((base - off) * 1000000 + (frac : ℤ))

/-- Attempt `datetime.strptime(s, '%Y-%m-%dT%H:%M:%S%z')`. -/
def parseNoFrac? (s : String) : Option ℤ := do
  let (base, r) ← parseBase? s.toList
  let off ← parseTzOffset? r
  some ((base - off) * 1000000)

/-- Model of `parse_timestamp` (`run.py` lines 33-37): try the fractional
format first and fall back to the whole-second format; `none` models the
uncaught `ValueError` when both fail.  The result is the instant in
microseconds since the Unix epoch. -/
def parse_timestamp (s : String) : Option ℤ :=
  (parseWithFrac? s).orElse (fun _ => parseNoFrac? s)

/-- Model of `round(ts.timestamp() * 1000)` (`run.py` line 125) on an
instant of `us` microseconds: division by 1000 with Python `round`
semantics (round half to even).  Exact at microsecond precision. -/
def pyRoundMilli (us : ℤ) : ℤ :=
  let q := Int.fdiv us 1000
  let r := Int.fmod us 1000
  if 2 * r < 1000 then q
  else if 2 * r > 1000 then q + 1
  else if Int.fmod q 2 = 0 then q else q + 1

/-- Parsed JSON manifest, restricted to the fields the program reads
(`manifest['epoch']`, `manifest['issuanceDate']`, `manifest['effectiveDate']`,
`run.py` lines 113-115).  A `none` field models `KeyError`. -/
structure RawManifest where
  epoch : Option String
  issuanceDate : Option String
  effectiveDate : Option String
deriving DecidableEq

/-- One immediate child of the extracted archive directory as seen by
`zipdir.iterdir()` (`run.py` line 129): its name and whether
`path2.is_file()` holds. -/
structure ArchiveMember where
  name : String
  isFile : Bool
deriving DecidableEq

/-- One entry of the scanned directory.  `load = none` models an `OSError`
or `json.JSONDecodeError` while opening/parsing the manifest (`run.py`
lines 105-111); `archive = none` models an exception raised while opening
or extracting the sibling zip archive (`run.py` lines 126-128);
`archive = some members` gives the immediate children of the extraction
directory. -/
structure DirEntry where
  stem : String
  suffix : String
  load : Option RawManifest
  archive : Option (List ArchiveMember)
deriving DecidableEq

/-- The process-global mutable state of `run` (`run.py` lines 82-83):
`manifest_by_ts` and `timestamps_by_epoch`.  Python dicts are modelled as
association lists in insertion order; the `set[int]` values are modelled as
lists without duplicates. -/
structure St where
  manifestByTs : List (ℤ × RawManifest)
  timestampsByEpoch : List (ℤ × List ℤ)
deriving DecidableEq

/-- Observable actions of one cycle, in program order: enqueueing an upload
job `(local path, remote key)` into the pipeline, registering a manifest in
the store, draining the pipeline (sentinel put + gather in the `finally`
block), removing the scratch workspace, and the end-of-cycle sleep. -/
inductive Ev where
  | enqueue (localPath key : String)
  | register (ts : ℤ)
  | drain
  | removeTree
  | sleep
deriving DecidableEq

/-- Exceptions that can escape the per-entry processing: the `assert` on
line 125 and a zip open/extract failure on lines 126-128. -/
inductive ScanErr where
  | assertionError
  | zipError
deriving DecidableEq

/-- Keys of an association list (Python `dict.keys()`). -/
def keysOf {α : Type} (l : List (ℤ × α)) : List ℤ := l.map Prod.fst

/-- Python `set.add`: insert without duplication. -/
def setInsert (l : List ℤ) (x : ℤ) : List ℤ := if x ∈ l then l else x :: l

/-- Model of `timestamps_by_epoch.setdefault(epoch, set()).add(ts0)`
(`run.py` line 134): update the epoch's set in place, or append a fresh
singleton set for a new epoch key. -/
def setdefaultAdd : List (ℤ × List ℤ) → ℤ → ℤ → List (ℤ × List ℤ)
  | [], k, v => [(k, [v])]
  | (k', s) :: rest, k, v =>
    if k' = k then (k', setInsert s v) :: rest
    else (k', s) :: setdefaultAdd rest k v

/-- The three `parse_timestamp` calls on manifest fields (`run.py` lines
113-115): `none` models the `KeyError`/`ValueError` paths that are caught
and turned into a per-entry skip. -/
def parsedDates (m : RawManifest) : Option (ℤ × ℤ × ℤ) :=
  match m.epoch, m.issuanceDate, m.effectiveDate with
  | some se, some si, some sf =>
    match parse_timestamp se, parse_timestamp si, parse_timestamp sf with
    | some epoch, some ts, some ets => some (epoch, ts, ets)
    | _, _, _ => none
  | _, _, _ => none

/-- Upload jobs produced for one manifest (`run.py` lines 129-132): every
immediate child of the extraction directory `tmpdir/<stem>` that is a
regular file yields one `(local path, remote key)` pair; the remote key is
`f'files/{ts0}/{path2.relative_to(tmpdir)}'`, whose relative part is
`<stem>/<name>`. -/
def entryJobs (tmp : String) (ts0 : ℤ) (stem : String)
    (members : List ArchiveMember) : List (String × String) :=
  (members.filter (fun mem => mem.isFile)).map (fun mem =>
    (tmp ++ "/" ++ stem ++ "/" ++ mem.name,
     "files/" ++ pyStr ts0 ++ "/" ++ stem ++ "/" ++ mem.name))

/-- Processing of one directory entry (`run.py` lines 95-134).  Skipped
entries yield `.ok (st, [])`; a registered manifest yields the new state
and its enqueue events followed by the register event; an uncaught
exception yields `.error`. -/
def scanEntry (tmp : String) (st : St) (e : DirEntry) :
    Except ScanErr (St × List Ev) :=
  if e.suffix = ".json" then
    match pyInt? e.stem with
    | none => .ok (st, [])
    | some ts0 =>
      if ts0 ∈ keysOf st.manifestByTs then .ok (st, [])
      else
        match e.load with
        | none => .ok (st, [])
        | some m =>
          match parsedDates m with
          | none => .ok (st, [])
          | some (epoch, ts, _ets) =>
            if pyRoundMilli ts = ts0 then
              match e.archive with
              | none => .error .zipError
              | some members =>
                let jobs := entryJobs tmp ts0 e.stem members
                .ok ({ manifestByTs := st.manifestByTs ++ [(ts0, m)],
                       timestampsByEpoch := setdefaultAdd st.timestampsByEpoch epoch ts0 },
                     jobs.map (fun j => Ev.enqueue j.1 j.2) ++ [Ev.register ts0])
            else .error .assertionError
  else .ok (st, [])

/-- Result of one directory scan: the state after the scan, the event
trace, and the uncaught exception (if any) that aborted the scan. -/
structure ScanOut where
  st : St
  evs : List Ev
  err : Option ScanErr
deriving DecidableEq

/-- One pass of the `for path in directory.iterdir()` loop (`run.py` lines
95-134).  An uncaught exception stops the scan at the failing entry;
entries after it are not processed. -/
def scanDir (tmp : String) (st : St) : List DirEntry → ScanOut
  | [] => ⟨st, [], none⟩
  | e :: es =>
    match scanEntry tmp st e with
    | .error err => ⟨st, [], some err⟩
    | .ok (st1, evs) =>
      let r := scanDir tmp st1 es
      ⟨r.st, evs ++ r.evs, r.err⟩

/-- Maximum key of an association list (Python `max(dict.keys())`);
`none` models the `ValueError` on an empty dict. -/
def maxKey? {α : Type} : List (ℤ × α) → Option ℤ
  | [] => none
  | (k, _) :: rest =>
    some (match maxKey? rest with
          | none => k
          | some m => max k m)

/-- Epoch selection and index rendering (`run.py` lines 135-140): the
maximum epoch key, and `[str(ts) for ts in sorted(timestamps_by_epoch[max_epoch])]`.
Python `sorted` is modelled by insertion sort (same ascending result).
`none` models the `ValueError` on an empty store. -/
def selectCurrentEpoch (st : St) : Option (ℤ × List String) :=
  match maxKey? st.timestampsByEpoch with
  | none => none
  | some maxEpoch =>
    some (maxEpoch,
      (List.insertionSort (fun a b => a ≤ b)
        ((st.timestampsByEpoch.lookup maxEpoch).getD [])).map pyStr)

/-- How one iteration of the `while True` loop ends: `crashed` (an uncaught
exception escaped the cycle after the `finally` block ran), `continued`
(the `continue` on line 138 — note it bypasses the sleep on line 154), or
`slept` (normal completion through `await asyncio.sleep(10)`). -/
inductive CycleExit where
  | crashed
  | continued
  | slept
deriving DecidableEq

/-- Result of one cycle: final state, observable event trace, exit mode. -/
structure CycleOut where
  st : St
  evs : List Ev
  exit : CycleExit
deriving DecidableEq

/-- One iteration of the `while True` loop in `run` (`run.py` lines 85-154):
scan the directory (streaming enqueue/register events), select the current
epoch, publish `list.json` and the indexer cache, then the `finally` block
(sentinel put + gather = `drain`, `rm_rf(tmpdir)` = `removeTree`), and the
trailing sleep — which is reached neither on an uncaught exception nor via
the empty-store `continue`. -/
def cycle (tmp : String) (st : St) (dir : List DirEntry)
    (indexerCache : String) : CycleOut :=
  let s := scanDir tmp st dir
  match s.err with
  | some _ => ⟨s.st, s.evs ++ [Ev.drain, Ev.removeTree], CycleExit.crashed⟩
  | none =>
    match selectCurrentEpoch s.st with
    | none => ⟨s.st, s.evs ++ [Ev.drain, Ev.removeTree], CycleExit.continued⟩
    | some _ =>
      ⟨s.st,
       s.evs ++ [Ev.enqueue (tmp ++ "/list.json") "api/scores/list.json",
                 Ev.enqueue indexerCache "api/scores/indexer-scores",
                 Ev.drain, Ev.removeTree, Ev.sleep],
       CycleExit.slept⟩

/-- Inputs of one cycle: the fresh scratch directory made by
`tempfile.mkdtemp()` and the directory contents seen by this scan. -/
structure CycleIn where
  tmp : String
  entries : List DirEntry

/-- Finitely many iterations of the `while True` loop of `run`, stopping
early when an uncaught exception escapes a cycle.  Returns the final state
and whether the loop was aborted by an exception.  (The real loop never
returns normally; a `false` flag means the process would still be
running.) -/
def run (indexerCache : String) : St → List CycleIn → St × Bool
  | st, [] => (st, false)
  | st, c :: cs =>
    let r := cycle c.tmp st c.entries indexerCache
    match r.exit with
    | .crashed => (r.st, true)
    | _ => run indexerCache r.st cs

/-- Configuration of the upload pipeline during shutdown (`run.py`): the
queue contents (`None` is the shutdown sentinel, a pair is an upload job),
the number of workers still running their `while True` loop, and the
number of workers that have logged "finished" and returned. -/
structure DrainCfg where
  queue : List (Option (String × String))
  live : ℕ
  finished : ℕ
deriving DecidableEq

/-- One scheduler step of the cooperative worker pool `upload_to_s3`
(`run.py` lines 58-77): a live worker dequeues the head item; a job is
uploaded (success or logged failure) and the worker loops; the sentinel
`None` is re-enqueued at the tail (`await queue.put(None)`, line 61)
before the worker logs "finished" and returns. -/
inductive UploaderStep : DrainCfg → DrainCfg → Prop
  | job (j : String × String) (q : List (Option (String × String))) (l f : ℕ) :
      UploaderStep ⟨some j :: q, l + 1, f⟩ ⟨q, l + 1, f⟩
  | sentinel (q : List (Option (String × String))) (l f : ℕ) :
      UploaderStep ⟨none :: q, l + 1, f⟩ ⟨q ++ [none], l, f + 1⟩

/-- Capacity passed to `asyncio.Queue` in `run` (`run.py` line 87):
`args.s3_uploaders * 4`. -/
def s3UploadQueueCapacity (s3Uploaders : ℕ) : ℕ := s3Uploaders * 4

/-- Semantics of the bounded `asyncio.Queue(cap)`: `put` appends at the
tail and is only enabled while the queue holds fewer than `cap` items (a
full queue suspends the producer), `get` removes the head item. -/
inductive QStep (cap : ℕ) :
    List (Option (String × String)) → List (Option (String × String)) → Prop
  | put (x : Option (String × String)) (q : List (Option (String × String)))
      (h : q.length < cap) : QStep cap q (q ++ [x])
  | get (x : Option (String × String)) (q : List (Option (String × String))) :
      QStep cap (x :: q) q

mutual
/-- A filesystem node as observed by `rm_rf` (`run.py` lines 40-46):
a regular file, a symbolic link (recording whether its target resolves to
a directory, which is what `path.is_dir()` — a link-following test —
reports), or a directory with named children. -/
inductive FsNode where
  | file : FsNode
  | symlink (targetIsDir : Bool) : FsNode
  | dir (children : FsList) : FsNode
/-- Children of a directory, as enumerated by `path.iterdir()`. -/
inductive FsList where
  | nil : FsList
  | cons (name : String) (node : FsNode) (rest : FsList) : FsList
end

/-- Python `path.is_dir()`: follows symbolic links. -/
def FsNode.isDirPy : FsNode → Bool
  | .file => false
  | .symlink b => b
  | .dir _ => true

/-- Python `path.is_symlink()`. -/
def FsNode.isSymlinkPy : FsNode → Bool
  | .symlink _ => true
  | _ => false

/-- Filesystem operations that `rm_rf` performs, tagged with the absolute
path (as a list of components) they act on. -/
inductive Act where
  | unlink (p : List String)
  | rmdir (p : List String)
deriving DecidableEq

/-- Path a filesystem action acts on. -/
def Act.path : Act → List String
  | .unlink p => p
  | .rmdir p => p

mutual
/-- Model of `rm_rf(path)` (`run.py` lines 40-46) on a present node: if
`path.is_dir() and not path.is_symlink()`, recurse into the children and
then `rmdir`; otherwise (plain file, or a symbolic link even when its
target is a directory) a single `unlink`. -/
def rm_rf (p : List String) : FsNode → List Act
  | .file => [Act.unlink p]
  | .symlink _ => [Act.unlink p]
  | .dir cs => rmRfChildren p cs ++ [Act.rmdir p]
/-- The `for child in path.iterdir(): rm_rf(child)` loop. -/
def rmRfChildren (p : List String) : FsList → List Act
  | .nil => []
  | .cons name c rest => rm_rf (p ++ [name]) c ++ rmRfChildren p rest
end

/-- Python `path.unlink(missing_ok=...)`: removing a present entry
performs the unlink; a missing entry is an error unless `missing_ok` is
set (the call on `run.py` line 46 passes `missing_ok=True`). -/
def pyUnlink (p : List String) (present missingOk : Bool) :
    Except String (List Act) :=
  if present then .ok [Act.unlink p]
  else if missingOk then .ok [] else .error "FileNotFoundError"

/-- Model of `rm_rf` applied to a path that may not exist: on a missing
path, `path.is_dir()` is false, so the else-branch runs
`path.unlink(missing_ok=True)`, which succeeds doing nothing. -/
def rmRfOpt (p : List String) : Option FsNode → Except String (List Act)
  | none => pyUnlink p false true
  | some n => .ok (rm_rf p n)

mutual
/-- Node reached from `n` by following child names physically (without
resolving symbolic links); `none` when the path does not denote a node of
the tree. -/
def nodeAt : FsNode → List String → Option FsNode
  | n, [] => some n
  | .dir cs, nm :: q => nodeAtChildren cs nm q
  | .file, _ :: _ => none
  | .symlink _, _ :: _ => none
/-- Helper of `nodeAt`: look up a child by name and continue. -/
def nodeAtChildren : FsList → String → List String → Option FsNode
  | .nil, _, _ => none
  | .cons nm c rest, nm', q =>
    if nm = nm' then nodeAt c q else nodeAtChildren rest nm' q
end

deriving instance DecidableEq for FsNode

/-- Outcome of the whole process as driven by `main` in `cmd/__init__.py`
lines 43-50: an exception escaping `run` is logged at critical severity and
the process exits with status 1. -/
structure MainOut where
  exitCode : Option ℕ
  criticalLogged : Bool
deriving DecidableEq

/-- Model of `main` (`cmd/__init__.py` lines 43-50 and `sys.exit(main())`):
if an exception escapes the cycle loop, log critical and exit 1; otherwise
the process is still running (`run` never returns normally). -/
def main (indexerCache : String) (st : St) (cycles : List CycleIn) : MainOut :=
  if (run indexerCache st cycles).2 then ⟨some 1, true⟩ else ⟨none, false⟩

/-- Names of the children of a directory listing. -/
def FsList.names : FsList → List String
  | .nil => []
  | .cons nm _ rest => nm :: names rest

mutual
/-- Well-formedness of a filesystem tree: sibling names are distinct at
every level (true of any real directory). -/
def FsNode.wfB : FsNode → Bool
  | .file => true
  | .symlink _ => true
  | .dir cs => decide (FsList.names cs).Nodup && FsList.wfB cs
/-- Well-formedness of every node of a directory listing. -/
def FsList.wfB : FsList → Bool
  | .nil => true
  | .cons _ c rest => FsNode.wfB c && FsList.wfB rest
end

/-- Well-formedness of the epoch index: each epoch's timestamp collection
is duplicate-free (it models a Python `set[int]`, and `setdefaultAdd`
preserves this). -/
def EpochIndexWF (st : St) : Prop :=
  ∀ p ∈ st.timestampsByEpoch, (p.2 : List ℤ).Nodup

/-- The manifest of the worked example in the specification: epoch
`2023-11-14T00:00:00+0000`, issuance date `2023-11-14T22:13:20+0000`
(exactly 1700000000000 ms since the epoch, matching the file name). -/
def exManifest : RawManifest :=
  { epoch := some "2023-11-14T00:00:00+0000",
    issuanceDate := some "2023-11-14T22:13:20+0000",
    effectiveDate := some "2023-11-14T22:13:20+0000" }

/-- The example directory entry `1700000000000.json` whose archive
`1700000000000.zip` contains one regular file `a.dat` (and, to exhibit the
non-recursive walk, one subdirectory). -/
def exEntry : DirEntry :=
  { stem := "1700000000000", suffix := ".json",
    load := some exManifest,
    archive := some [⟨"a.dat", true⟩, ⟨"subdir", false⟩] }

/-- An entry identical to the example but whose archive open/extract
raises (for instance the `.zip` sibling is missing or corrupt). -/
def zipFailEntry : DirEntry :=
  { stem := "1700000000000", suffix := ".json",
    load := some exManifest, archive := none }

/-- A second, fully valid entry `1700000001000.json`. -/
def goodEntry : DirEntry :=
  { stem := "1700000001000", suffix := ".json",
    load := some { epoch := some "2023-11-14T00:00:00+0000",
                   issuanceDate := some "2023-11-14T22:13:21+0000",
                   effectiveDate := some "2023-11-14T22:13:21+0000" },
    archive := some [⟨"b.dat", true⟩] }

/-- An entry whose file name stem (`1700000001.json`) does not match its
`issuanceDate` (1700000000000 ms): the `assert` on `run.py` line 125
fires. -/
def mismatchEntry : DirEntry :=
  { stem := "1700000001", suffix := ".json",
    load := some exManifest, archive := some [] }

/-- Value of a little-endian digit list (proof-side inverse of
`natDigitsLE`). -/
def fromDigitsLE : List ℕ → ℕ
  | [] => 0
  | d :: ds => d + 10 * fromDigitsLE ds

/-! Injectivity of the decimal rendering `pyStr`, used to show the
published index has no duplicate strings. -/

theorem fromDigitsLE_natDigitsLE :
    ∀ fuel n : ℕ, n ≤ fuel → fromDigitsLE (natDigitsLE fuel n) = n := by
  intro fuel
  induction fuel with
  | zero => intro n hn; interval_cases n; simp [natDigitsLE, fromDigitsLE]
  | succ k ih =>
    intro n hn
    by_cases h0 : n = 0
    · simp [natDigitsLE, h0, fromDigitsLE]
    · have hdiv : n / 10 ≤ k := by
        have : n / 10 < n := Nat.div_lt_self (Nat.pos_of_ne_zero h0) (by norm_num)
        omega
      simp only [natDigitsLE, h0, if_false, fromDigitsLE]
      rw [ih _ hdiv]
      omega

theorem natDigitsLE_lt10 :
    ∀ fuel n d : ℕ, d ∈ natDigitsLE fuel n → d < 10 := by
  intro fuel
  induction fuel with
  | zero => intro n d hd; simp [natDigitsLE] at hd
  | succ k ih =>
    intro n d hd
    by_cases h0 : n = 0
    · simp [natDigitsLE, h0] at hd
    · simp only [natDigitsLE, h0, if_false, List.mem_cons] at hd
      rcases hd with h | h
      · omega
      · exact ih _ _ h

theorem digitChar_inj10 (a b : ℕ) (ha : a < 10) (hb : b < 10)
    (h : Nat.digitChar a = Nat.digitChar b) : a = b := by
  have key : ∀ x y : Fin 10, Nat.digitChar x = Nat.digitChar y → x = y := by decide
  have := key ⟨a, ha⟩ ⟨b, hb⟩ h
  exact congrArg Fin.val this

theorem digitChar_ne_dash (a : ℕ) (ha : a < 10) : Nat.digitChar a ≠ '-' := by
  have key : ∀ x : Fin 10, Nat.digitChar x ≠ '-' := by decide
  exact key ⟨a, ha⟩

theorem map_digitChar_inj :
    ∀ l1 l2 : List ℕ, (∀ d ∈ l1, d < 10) → (∀ d ∈ l2, d < 10) →
      l1.map Nat.digitChar = l2.map Nat.digitChar → l1 = l2 := by
  intro l1
  induction l1 with
  | nil => intro l2 _ _ h; cases l2 <;> simp_all
  | cons a l ih =>
    intro l2 h1 h2 h
    cases l2 with
    | nil => simp at h
    | cons b l' =>
      simp only [List.map_cons, List.cons.injEq] at h
      have ha := h1 a (by simp)
      have hb := h2 b (by simp)
      have := digitChar_inj10 a b ha hb h.1
      subst this
      have := ih l' (fun d hd => h1 d (by simp [hd])) (fun d hd => h2 d (by simp [hd])) h.2
      simp [this]

theorem pyNatChars_spec (n : ℕ) :
    ∃ l : List ℕ, pyNatChars n = l.reverse.map Nat.digitChar
      ∧ (∀ d ∈ l, d < 10) ∧ fromDigitsLE l = n := by
  by_cases h0 : n = 0
  · exact ⟨[0], by simp [pyNatChars, h0]; rfl, by simp, by simp [fromDigitsLE, h0]⟩
  · exact ⟨natDigitsLE n n, by simp [pyNatChars, h0],
      fun d hd => natDigitsLE_lt10 n n d hd,
      fromDigitsLE_natDigitsLE n n le_rfl⟩

theorem pyNatChars_ne_nil (n : ℕ) : pyNatChars n ≠ [] := by
  unfold pyNatChars
  by_cases h0 : n = 0
  · simp [h0]
  · simp only [h0, if_false]
    obtain ⟨k, rfl⟩ : ∃ k, n = k + 1 := ⟨n - 1, by omega⟩
    simp [natDigitsLE]

theorem pyNatChars_head_ne_dash (n : ℕ) (c : Char) (cs : List Char)
    (h : pyNatChars n = c :: cs) : c ≠ '-' := by
  obtain ⟨l, e, b, _⟩ := pyNatChars_spec n
  rw [e] at h
  have hc : c ∈ l.reverse.map Nat.digitChar := by rw [h]; simp
  rcases List.mem_map.mp hc with ⟨d, hd, rfl⟩
  exact digitChar_ne_dash d (b d (List.mem_reverse.mp hd))

theorem pyNatChars_inj (m n : ℕ) (h : pyNatChars m = pyNatChars n) : m = n := by
  obtain ⟨l1, e1, b1, v1⟩ := pyNatChars_spec m
  obtain ⟨l2, e2, b2, v2⟩ := pyNatChars_spec n
  rw [e1, e2] at h
  have hrev : l1.reverse = l2.reverse :=
    map_digitChar_inj _ _
      (fun d hd => b1 d (List.mem_reverse.mp hd))
      (fun d hd => b2 d (List.mem_reverse.mp hd)) h
  have : l1 = l2 := by
    have := congrArg List.reverse hrev
    simpa using this
  rw [← v1, ← v2, this]

theorem pyStr_injective : Function.Injective pyStr := by
  intro i j h
  have hchars : pyStrChars i = pyStrChars j := by
    have := congrArg String.data h
    simpa [pyStr] using this
  unfold pyStrChars at hchars
  by_cases hi : i < 0 <;> by_cases hj : j < 0
  · simp only [hi, if_true, hj, List.cons.injEq, true_and] at hchars
    have := pyNatChars_inj _ _ hchars
    omega
  · exfalso
    simp only [hi, if_true, hj, if_false] at hchars
    exact pyNatChars_head_ne_dash j.natAbs '-' _ hchars.symm rfl
  · exfalso
    simp only [hi, if_false, hj, if_true] at hchars
    exact pyNatChars_head_ne_dash i.natAbs '-' _ hchars rfl
  · simp only [hi, if_false, hj] at hchars
    have := pyNatChars_inj _ _ hchars
    omega

/-! Confinement of the recursive deleter `rm_rf`: every action it performs
is on a path inside the subtree it was called on, and it never descends
below a symbolic link. -/

mutual
theorem rm_rf_confined : ∀ (p : List String) (n : FsNode) (a : Act),
    a ∈ rm_rf p n → ∃ q, a.path = p ++ q
  | p, .file, a, h => by
    simp only [rm_rf, List.mem_singleton] at h
    exact ⟨[], by simp [h, Act.path]⟩
  | p, .symlink b, a, h => by
    simp only [rm_rf, List.mem_singleton] at h
    exact ⟨[], by simp [h, Act.path]⟩
  | p, .dir cs, a, h => by
    simp only [rm_rf, List.mem_append, List.mem_singleton] at h
    rcases h with h | h
    · obtain ⟨nm, t, _, hp⟩ := rmRfChildren_confined p cs a h
      exact ⟨nm :: t, hp⟩
    · exact ⟨[], by simp [h, Act.path]⟩
theorem rmRfChildren_confined : ∀ (p : List String) (cs : FsList) (a : Act),
    a ∈ rmRfChildren p cs → ∃ nm t, nm ∈ FsList.names cs ∧ a.path = p ++ nm :: t
  | p, .nil, a, h => by simp [rmRfChildren] at h
  | p, .cons nm c rest, a, h => by
    simp only [rmRfChildren, List.mem_append] at h
    rcases h with h | h
    · obtain ⟨q, hq⟩ := rm_rf_confined (p ++ [nm]) c a h
      exact ⟨nm, q, by simp [FsList.names], by simp [hq]⟩
    · obtain ⟨nm', t, hmem, hp⟩ := rmRfChildren_confined p rest a h
      exact ⟨nm', t, by simp [FsList.names, hmem], hp⟩
end

mutual
theorem rm_rf_shield : ∀ (p : List String) (n : FsNode) (q : List String) (b : Bool),
    FsNode.wfB n = true → nodeAt n q = some (FsNode.symlink b) →
    ∀ a ∈ rm_rf p n, ∀ s : List String, s ≠ [] → a.path ≠ p ++ q ++ s
  | p, .file, q, b, hwf, hnode, a, ha, s, hs => by
    cases q <;> simp [nodeAt] at hnode
  | p, .symlink b', q, b, hwf, hnode, a, ha, s, hs => by
    cases q with
    | nil =>
      simp only [rm_rf, List.mem_singleton] at ha
      subst ha
      simp only [Act.path, List.nil_append]
      intro hcontra
      have := congrArg List.length hcontra
      simp at this
      exact hs this
    | cons c q' => simp [nodeAt] at hnode
  | p, .dir cs, q, b, hwf, hnode, a, ha, s, hs => by
    cases q with
    | nil => simp [nodeAt] at hnode
    | cons nm q' =>
      simp only [nodeAt] at hnode
      simp only [FsNode.wfB, Bool.and_eq_true, decide_eq_true_eq] at hwf
      simp only [rm_rf, List.mem_append, List.mem_singleton] at ha
      rcases ha with ha | ha
      · exact rmRfChildren_shield p cs nm q' b hwf.2 hwf.1 hnode a ha s hs
      · subst ha
        simp only [Act.path]
        intro hcontra
        have := congrArg List.length hcontra
        simp at this
theorem rmRfChildren_shield : ∀ (p : List String) (cs : FsList) (nm : String)
    (q : List String) (b : Bool),
    FsList.wfB cs = true → (FsList.names cs).Nodup →
    nodeAtChildren cs nm q = some (FsNode.symlink b) →
    ∀ a ∈ rmRfChildren p cs, ∀ s : List String, s ≠ [] →
    a.path ≠ p ++ (nm :: q) ++ s
  | p, .nil, nm, q, b, hwf, hnames, hnode, a, ha, s, hs => by
    simp [nodeAtChildren] at hnode
  | p, .cons nm0 c rest, nm, q, b, hwf, hnames, hnode, a, ha, s, hs => by
    simp only [FsList.wfB, Bool.and_eq_true] at hwf
    simp only [FsList.names, List.nodup_cons] at hnames
    simp only [nodeAtChildren] at hnode
    simp only [rmRfChildren, List.mem_append] at ha
    by_cases heq : nm0 = nm
    · rw [if_pos heq] at hnode
      subst heq
      rcases ha with ha | ha
      · have := rm_rf_shield (p ++ [nm0]) c q b hwf.1 hnode a ha s hs
        simpa [List.append_assoc] using this
      · obtain ⟨nm', t, hmem, hp⟩ := rmRfChildren_confined p rest a ha
        rw [hp]
        intro hcontra
        have h2 : nm' = nm0 ∧ t = q ++ s := by
          simpa [List.append_assoc] using hcontra
        exact hnames.1 (h2.1 ▸ hmem)
    · rw [if_neg heq] at hnode
      rcases ha with ha | ha
      · obtain ⟨t, hp⟩ := rm_rf_confined (p ++ [nm0]) c a ha
        rw [hp]
        intro hcontra
        have h2 : nm0 = nm ∧ t = q ++ s := by
          simpa [List.append_assoc] using hcontra
        exact heq h2.1
      · exact rmRfChildren_shield p rest nm q b hwf.2 hnames.2 hnode a ha s hs
end

/-- C10: the recursive scratch-workspace deleter `rm_rf` never traverses
through a symbolic link: a symlink node — even one whose target is a
directory — produces a single `unlink` of the link itself; every action is
confined to the subtree below the argument path, and no action ever
touches a path strictly below a symlink of a well-formed tree (so
filesystem entries reachable only through symlinks inside the workspace
are left unchanged); and deleting an already-missing path succeeds without
error (`unlink(missing_ok=True)`). -/
theorem c10_rm_rf_symlink_safe :
    (∀ (p : List String) (b : Bool), rm_rf p (FsNode.symlink b) = [Act.unlink p])
    ∧ (∀ (p : List String) (n : FsNode) (a : Act),
        a ∈ rm_rf p n → ∃ q, a.path = p ++ q)
    ∧ (∀ (p : List String) (n : FsNode) (q : List String) (b : Bool),
        FsNode.wfB n = true → nodeAt n q = some (FsNode.symlink b) →
        ∀ a ∈ rm_rf p n, ∀ s : List String, s ≠ [] → a.path ≠ p ++ q ++ s)
    ∧ (∀ p : List String, rmRfOpt p none = Except.ok []) :=
  ⟨fun _ _ => rfl,
   fun p n a h => rm_rf_confined p n a h,
   fun p n q b hwf hnode a ha s hs => rm_rf_shield p n q b hwf hnode a ha s hs,
   fun _ => rfl⟩

/-- Witness for C10 on a concrete tree `w/` containing a file `a` and a
symlink `l` to a directory: the symlink is unlinked (not recursed into),
actions stay inside `w/`, nothing below `w/l/` is touched, and deleting a
missing path succeeds. -/
theorem c10_rm_rf_symlink_safe_witness :
    rm_rf ["w"] (FsNode.symlink true) = [Act.unlink ["w"]]
    ∧ (∃ q, (Act.unlink ["w", "a"]).path = ["w"] ++ q)
    ∧ (Act.unlink ["w", "l"]).path ≠ ["w"] ++ ["l"] ++ ["x"]
    ∧ rmRfOpt ["gone"] none = Except.ok [] :=
  ⟨c10_rm_rf_symlink_safe.1 ["w"] true,
   c10_rm_rf_symlink_safe.2.1 ["w"]
     (FsNode.dir (.cons "a" .file (.cons "l" (.symlink true) .nil)))
     (Act.unlink ["w", "a"]) (by decide),
   c10_rm_rf_symlink_safe.2.2.1 ["w"]
     (FsNode.dir (.cons "a" .file (.cons "l" (.symlink true) .nil)))
     ["l"] true (by decide) (by rfl)
     (Act.unlink ["w", "l"]) (by decide) ["x"] (by decide),
   c10_rm_rf_symlink_safe.2.2.2 ["gone"]⟩

/-! Drain protocol of the uploader pool (C7). -/

theorem uploader_consume (jobs : List (String × String))
    (q : List (Option (String × String))) (l f : ℕ) (hl : 0 < l) :
    Relation.ReflTransGen UploaderStep ⟨jobs.map some ++ q, l, f⟩ ⟨q, l, f⟩ := by
  induction jobs with
  | nil => simpa using Relation.ReflTransGen.refl
  | cons j js ih =>
    obtain ⟨l', rfl⟩ : ∃ l', l = l' + 1 := ⟨l - 1, by omega⟩
    exact Relation.ReflTransGen.head (UploaderStep.job j (js.map some ++ q) l' f) ih

theorem uploader_broadcast (l f : ℕ) :
    Relation.ReflTransGen UploaderStep ⟨[none], l, f⟩ ⟨[none], 0, f + l⟩ := by
  induction l generalizing f with
  | zero => simpa using Relation.ReflTransGen.refl
  | succ k ih =>
    have step : UploaderStep ⟨[none], k + 1, f⟩ ⟨[none], k, f + 1⟩ :=
      UploaderStep.sentinel [] k f
    have rest := ih (f + 1)
    have harith : f + 1 + k = f + (k + 1) := by omega
    rw [harith] at rest
    exact Relation.ReflTransGen.head step rest

/-- C7: with `N` active workers, enqueuing the shutdown sentinel exactly
once (after any backlog of jobs) drives the pool to the configuration
where all jobs are consumed, all `N` workers have observed the sentinel
once, re-enqueued it and terminated (`finished = N`, `live = 0`), the
drained pool is stuck (so `gather` returns), and the scheduler relation is
deterministic, so this is the outcome of every execution. -/
theorem c7_sentinel_drain (jobs : List (String × String)) (N : ℕ) (hN : 0 < N) :
    Relation.ReflTransGen UploaderStep ⟨jobs.map some ++ [none], N, 0⟩ ⟨[none], 0, N⟩
    ∧ (∀ c, ¬ UploaderStep ⟨[none], 0, N⟩ c)
    ∧ (∀ a b c : DrainCfg, UploaderStep a b → UploaderStep a c → b = c) := by
  refine ⟨?_, ?_, ?_⟩
  · have h1 := uploader_consume jobs [none] N 0 hN
    have h2 := uploader_broadcast N 0
    simp only [Nat.zero_add] at h2
    exact h1.trans h2
  · intro c h
    cases h
  · intro a b c hb hc
    cases hb <;> cases hc <;> rfl

/-- Witness for C7 at one pending job and two workers. -/
theorem c7_sentinel_drain_witness :
    Relation.ReflTransGen UploaderStep
      ⟨[("/t/a.dat", "files/1/1/a.dat")].map some ++ [none], 2, 0⟩ ⟨[none], 0, 2⟩
    ∧ (∀ c, ¬ UploaderStep ⟨[none], 0, 2⟩ c)
    ∧ (∀ a b c : DrainCfg, UploaderStep a b → UploaderStep a c → b = c) :=
  c7_sentinel_drain [("/t/a.dat", "files/1/1/a.dat")] 2 (by norm_num)

/-- C9: the upload queue of a cycle is created with capacity
`s3_uploaders * 4 = 4 × workerCount` (`run.py` line 87); under the bounded
queue semantics every reachable queue holds at most `cap` items; a step
that grows the queue is possible only when it is not full (a producer
attempting to enqueue into a full queue is blocked); when the queue is
full the only possible step is a dequeue; and after a dequeue from a full
queue an enqueue is enabled again. -/
theorem c9_queue_capacity :
    (∀ w : ℕ, s3UploadQueueCapacity w = 4 * w)
    ∧ (∀ (cap : ℕ) (q : List (Option (String × String))),
        Relation.ReflTransGen (QStep cap) [] q → q.length ≤ cap)
    ∧ (∀ (cap : ℕ) (q q' : List (Option (String × String))),
        QStep cap q q' → q'.length = q.length + 1 → q.length < cap)
    ∧ (∀ (cap : ℕ) (q q' : List (Option (String × String))),
        q.length = cap → QStep cap q q' → ∃ x rest, q = x :: rest ∧ q' = rest)
    ∧ (∀ (cap : ℕ) (x : Option (String × String))
        (rest : List (Option (String × String))) (y : Option (String × String)),
        (x :: rest).length = cap → QStep cap rest (rest ++ [y])) := by
  refine ⟨?_, ?_, ?_, ?_, ?_⟩
  · intro w
    simp [s3UploadQueueCapacity, Nat.mul_comm]
  · intro cap q h
    induction h with
    | refl => simp
    | tail hab hbc ih =>
      cases hbc with
      | put x q hlt => simp; omega
      | get x q => simp at ih ⊢; omega
  · intro cap q q' h hlen
    cases h with
    | put x q hlt => exact hlt
    | get x q => simp at hlen; omega
  · intro cap q q' hfull h
    cases h with
    | put x q hlt => omega
    | get => exact ⟨_, _, rfl, rfl⟩
  · intro cap x rest y hlen
    exact QStep.put y rest (by simp at hlen; omega)

/-- Witness for C9: capacity of the default 10-uploader pool, a reachable
one-element queue of capacity 8, a put into it, the forced dequeue of a
full capacity-1 queue, and re-enabling after that dequeue. -/
theorem c9_queue_capacity_witness :
    s3UploadQueueCapacity 10 = 4 * 10
    ∧ ([some ("/t/a", "k")] : List (Option (String × String))).length ≤ 8
    ∧ ([] : List (Option (String × String))).length < 1
    ∧ (∃ x rest, ([none] : List (Option (String × String))) = x :: rest
        ∧ ([] : List (Option (String × String))) = rest)
    ∧ QStep 1 [] ([] ++ [some ("/t/a", "k")]) :=
  ⟨c9_queue_capacity.1 10,
   c9_queue_capacity.2.1 8 [some ("/t/a", "k")]
     (Relation.ReflTransGen.single (QStep.put (some ("/t/a", "k")) [] (by norm_num))),
   c9_queue_capacity.2.2.1 1 [] ([] ++ [none]) (QStep.put none [] (by norm_num)) (by simp),
   c9_queue_capacity.2.2.2.1 1 [none] [] (by simp) (QStep.get none []),
   c9_queue_capacity.2.2.2.2 1 none [] (some ("/t/a", "k")) (by simp)⟩

/-- C5 (code bug): starting from an empty Manifest Store, epoch selection
fails with the empty-store condition and the cycle skips publishing,
drains the pipeline and removes the scratch workspace — but the `continue`
on `run.py` line 138 jumps back to the top of the `while True` loop
*without* executing `await asyncio.sleep(10)` on line 154, so no sleep
event occurs and the next cycle begins immediately. -/
theorem c5_empty_store_skips_sleep :
    cycle "/tmp0" ⟨[], []⟩ [] "/cache/indexer.csv"
      = ⟨⟨[], []⟩, [Ev.drain, Ev.removeTree], CycleExit.continued⟩
    ∧ selectCurrentEpoch ⟨[], []⟩ = none
    ∧ Ev.sleep ∉ (cycle "/tmp0" ⟨[], []⟩ [] "/cache/indexer.csv").evs
    ∧ run "/cache/indexer.csv" ⟨[], []⟩ [⟨"/tmp0", []⟩] = (⟨[], []⟩, false) := by
  refine ⟨rfl, rfl, by decide, rfl⟩

/-- C1 (counterexample): on the specification's own example directory —
manifest `1700000000000.json` with matching issuance date and an archive
containing the single regular file `a.dat` — the manifest is discovered
and registered, yet no upload job anywhere in the cycle carries the
claimed remote key `files/1700000000000/a.dat`: the extracted file's path
relative to the workspace root is `1700000000000/a.dat`, so the produced
key doubles the timestamp component. -/
theorem c1_counterexample :
    Ev.register 1700000000000
        ∈ (cycle "/scratch" ⟨[], []⟩ [exEntry] "/cache/indexer.csv").evs
    ∧ ((cycle "/scratch" ⟨[], []⟩ [exEntry] "/cache/indexer.csv").evs.all
        (fun ev => match ev with
          | Ev.enqueue _ k => k != "files/1700000000000/a.dat"
          | _ => true)) = true := by
  constructor
  · decide
  · decide

/-- C1 (amended): every regular file among the immediate children of the
extraction directory becomes exactly one upload job whose remote key is
`files/<T>/<path relative to the workspace root>`; that relative path
itself starts with the per-timestamp directory, so the example cycle
uploads `files/1700000000000/1700000000000/a.dat` (and the index and
cache artifacts), the subdirectory member yields no job, and the
workspace is removed. -/
theorem c1_amended_example :
    (cycle "/scratch" ⟨[], []⟩ [exEntry] "/cache/indexer.csv").evs
      = [Ev.enqueue "/scratch/1700000000000/a.dat"
           "files/1700000000000/1700000000000/a.dat",
         Ev.register 1700000000000,
         Ev.enqueue "/scratch/list.json" "api/scores/list.json",
         Ev.enqueue "/cache/indexer.csv" "api/scores/indexer-scores",
         Ev.drain, Ev.removeTree, Ev.sleep]
    ∧ entryJobs "/scratch" 1700000000000 "1700000000000"
        [⟨"a.dat", true⟩, ⟨"subdir", false⟩]
      = [("/scratch/1700000000000/a.dat",
          "files/1700000000000/1700000000000/a.dat")] := by
  constructor
  · decide
  · decide

/-- C6: a manifest entry whose parsed `issuanceDate`, converted to
milliseconds with Python `round`, differs from its file-name-derived
timestamp is never registered: the `assert` on `run.py` line 125 raises
before registration, the scan aborts with the state unchanged, the cycle
crashes, and the process logs at critical severity and terminates with
exit status 1 (`cmd/__init__.py` lines 43-50). -/
theorem c6_issuance_mismatch_fatal
    (tmp cache : String) (st : St) (e : DirEntry) (ts0 : ℤ) (m : RawManifest)
    (ep ts ets : ℤ) (d2 : List DirEntry)
    (hsuf : e.suffix = ".json")
    (hstem : pyInt? e.stem = some ts0)
    (hnew : ts0 ∉ keysOf st.manifestByTs)
    (hload : e.load = some m)
    (hdates : parsedDates m = some (ep, ts, ets))
    (hmism : pyRoundMilli ts ≠ ts0) :
    scanEntry tmp st e = .error .assertionError
    ∧ scanDir tmp st (e :: d2) = ⟨st, [], some .assertionError⟩
    ∧ (cycle tmp st (e :: d2) cache).exit = CycleExit.crashed
    ∧ main cache st [⟨tmp, e :: d2⟩] = ⟨some 1, true⟩ := by
  have h1 : scanEntry tmp st e = .error .assertionError := by
    simp [scanEntry, hsuf, hstem, hnew, hload, hdates, hmism]
  have h2 : scanDir tmp st (e :: d2) = ⟨st, [], some .assertionError⟩ := by
    simp [scanDir, h1]
  refine ⟨h1, h2, ?_, ?_⟩
  · simp [cycle, h2]
  · simp [main, run, cycle, h2]

/-- Witness for C6: the concrete entry `1700000001.json` whose manifest
issuance date is 1700000000000 ms. -/
theorem c6_issuance_mismatch_fatal_witness :
    (mismatchEntry.suffix = ".json"
     ∧ pyInt? mismatchEntry.stem = some 1700000001
     ∧ (1700000001 : ℤ) ∉ keysOf (St.mk [] []).manifestByTs
     ∧ mismatchEntry.load = some exManifest
     ∧ parsedDates exManifest
         = some (1699920000000000, 1700000000000000, 1700000000000000)
     ∧ pyRoundMilli 1700000000000000 ≠ 1700000001)
    ∧ main "/c" ⟨[], []⟩ [⟨"/s", [mismatchEntry]⟩] = ⟨some 1, true⟩ :=
  ⟨⟨rfl, by decide, by decide, rfl, by decide, by decide⟩,
   (c6_issuance_mismatch_fatal "/s" "/c" ⟨[], []⟩ mismatchEntry 1700000001
      exManifest 1699920000000000 1700000000000000 1700000000000000 []
      rfl (by decide) (by decide) rfl (by decide) (by decide)).2.2.2⟩

/-! Association-list lookup helpers. -/

theorem lookup_append_of_some {β : Type} (l1 l2 : List (ℤ × β)) (k : ℤ) (v : β)
    (h : l1.lookup k = some v) : (l1 ++ l2).lookup k = some v := by
  induction l1 with
  | nil => simp [List.lookup] at h
  | cons p l ih =>
    obtain ⟨k', v'⟩ := p
    simp only [List.lookup, List.cons_append] at h ⊢
    cases hbk : (k == k')
    · simp only [hbk] at h ⊢
      exact ih h
    · simp only [hbk] at h ⊢
      exact h

theorem lookup_some_of_mem_keys {β : Type} (l : List (ℤ × β)) (k : ℤ)
    (h : k ∈ keysOf l) : ∃ v, l.lookup k = some v := by
  induction l with
  | nil => simp [keysOf] at h
  | cons p l ih =>
    obtain ⟨k', v'⟩ := p
    by_cases hk : k = k'
    · exact ⟨v', by simp [List.lookup, hk]⟩
    · have hmem : k ∈ keysOf l := by
        simp only [keysOf, List.map_cons, List.mem_cons] at h
        tauto
      obtain ⟨v, hv⟩ := ih hmem
      refine ⟨v, ?_⟩
      have hbk : (k == k') = false := by simp [hk]
      simp [List.lookup, hbk, hv]

theorem mem_of_lookup_eq_some {β : Type} (l : List (ℤ × β)) (k : ℤ) (v : β)
    (h : l.lookup k = some v) : (k, v) ∈ l := by
  induction l with
  | nil => simp [List.lookup] at h
  | cons p l ih =>
    obtain ⟨k', v'⟩ := p
    simp only [List.lookup] at h
    cases hbk : (k == k')
    · simp only [hbk] at h
      exact List.mem_cons_of_mem _ (ih h)
    · simp only [hbk] at h
      have hk : k = k' := eq_of_beq hbk
      have hv : v' = v := by simpa using h
      subst hk
      simp [hv]

/-! Exhaustive description of the outcomes of `scanEntry` that return
normally: either the entry is skipped (state untouched, no events), or it
is registered (manifest appended, epoch index updated, enqueue events
followed by the register event). -/

theorem scanEntry_ok_cases (tmp : String) (st : St) (e : DirEntry)
    (st' : St) (evs : List Ev) (h : scanEntry tmp st e = .ok (st', evs)) :
    (st' = st ∧ evs = []) ∨
    ∃ ts0 m epoch ts ets members,
      e.suffix = ".json" ∧ pyInt? e.stem = some ts0
      ∧ ts0 ∉ keysOf st.manifestByTs
      ∧ e.load = some m ∧ parsedDates m = some (epoch, ts, ets)
      ∧ pyRoundMilli ts = ts0 ∧ e.archive = some members
      ∧ st' = ⟨st.manifestByTs ++ [(ts0, m)],
               setdefaultAdd st.timestampsByEpoch epoch ts0⟩
      ∧ evs = (entryJobs tmp ts0 e.stem members).map (fun j => Ev.enqueue j.1 j.2)
          ++ [Ev.register ts0] := by
  by_cases hsuf : e.suffix = ".json"
  · cases hstem : pyInt? e.stem with
    | none =>
      left
      simp only [scanEntry, hsuf, if_true, hstem] at h
      simp only [Except.ok.injEq, Prod.mk.injEq] at h
      exact ⟨h.1.symm, h.2.symm⟩
    | some ts0 =>
      by_cases hmem : ts0 ∈ keysOf st.manifestByTs
      · left
        simp only [scanEntry, hsuf, if_true, hstem, hmem, if_true] at h
        simp only [Except.ok.injEq, Prod.mk.injEq] at h
        exact ⟨h.1.symm, h.2.symm⟩
      · cases hload : e.load with
        | none =>
          left
          simp only [scanEntry, hsuf, if_true, hstem, hmem, if_false, hload] at h
          simp only [Except.ok.injEq, Prod.mk.injEq] at h
          exact ⟨h.1.symm, h.2.symm⟩
        | some m =>
          cases hdates : parsedDates m with
          | none =>
            left
            simp only [scanEntry, hsuf, if_true, hstem, hmem, if_false, hload,
              hdates] at h
            simp only [Except.ok.injEq, Prod.mk.injEq] at h
            exact ⟨h.1.symm, h.2.symm⟩
          | some tr =>
            obtain ⟨epoch, ts, ets⟩ := tr
            by_cases hround : pyRoundMilli ts = ts0
            · cases harch : e.archive with
              | none =>
                exfalso
                simp [scanEntry, hsuf, hstem, hmem, hload, hdates, hround,
                  harch] at h
              | some members =>
                right
                simp only [scanEntry, hsuf, if_true, hstem, hmem, if_false,
                  hload, hdates, hround, harch] at h
                simp only [Except.ok.injEq, Prod.mk.injEq] at h
                exact ⟨ts0, m, epoch, ts, ets, members, hsuf, rfl, hmem,
                  rfl, hdates, hround, rfl, h.1.symm, h.2.symm⟩
            · exfalso
              simp [scanEntry, hsuf, hstem, hmem, hload, hdates, hround] at h
  · left
    simp only [scanEntry, hsuf, if_false] at h
    simp only [Except.ok.injEq, Prod.mk.injEq] at h
    exact ⟨h.1.symm, h.2.symm⟩

theorem scanEntry_keys_mono (tmp : String) (st : St) (e : DirEntry) (st' : St)
    (evs : List Ev) (h : scanEntry tmp st e = .ok (st', evs)) :
    ∀ k ∈ keysOf st.manifestByTs, k ∈ keysOf st'.manifestByTs := by
  rcases scanEntry_ok_cases tmp st e st' evs h with ⟨rfl, -⟩ |
    ⟨ts0, m, ep, ts, ets, mems, -, -, -, -, -, -, -, hst', -⟩
  · exact fun k hk => hk
  · intro k hk
    rw [hst']
    simp only [keysOf, List.map_append] at hk ⊢
    exact List.mem_append_left _ hk

theorem scanEntry_lookup_preserved (tmp : String) (st : St) (e : DirEntry)
    (st' : St) (evs : List Ev) (h : scanEntry tmp st e = .ok (st', evs))
    (k : ℤ) (v : RawManifest) (hl : st.manifestByTs.lookup k = some v) :
    st'.manifestByTs.lookup k = some v := by
  rcases scanEntry_ok_cases tmp st e st' evs h with ⟨rfl, -⟩ |
    ⟨ts0, m, ep, ts, ets, mems, -, -, -, -, -, -, -, hst', -⟩
  · exact hl
  · rw [hst']
    exact lookup_append_of_some _ _ _ _ hl

theorem scanDir_keys_mono (tmp : String) (d : List DirEntry) : ∀ (st : St),
    ∀ k ∈ keysOf st.manifestByTs, k ∈ keysOf (scanDir tmp st d).st.manifestByTs := by
  induction d with
  | nil => intro st k hk; simpa [scanDir] using hk
  | cons e es ih =>
    intro st k hk
    cases hse : scanEntry tmp st e with
    | error err => simpa [scanDir, hse] using hk
    | ok p =>
      obtain ⟨st1, evs⟩ := p
      have h1 := scanEntry_keys_mono tmp st e st1 evs hse k hk
      simpa [scanDir, hse] using ih st1 k h1

theorem scanDir_lookup_preserved (tmp : String) (d : List DirEntry) : ∀ (st : St)
    (k : ℤ) (v : RawManifest), st.manifestByTs.lookup k = some v →
    (scanDir tmp st d).st.manifestByTs.lookup k = some v := by
  induction d with
  | nil => intro st k v h; simpa [scanDir] using h
  | cons e es ih =>
    intro st k v h
    cases hse : scanEntry tmp st e with
    | error err => simpa [scanDir, hse] using h
    | ok p =>
      obtain ⟨st1, evs⟩ := p
      have h1 := scanEntry_lookup_preserved tmp st e st1 evs hse k v h
      simpa [scanDir, hse] using ih st1 k v h1

/-- If an entry was processed without an exception from state `st`, then
from any state whose manifest keys include those of the result, the same
entry is skipped as already seen (or for the same content reason), leaving
the state untouched and producing no events. -/
theorem scanEntry_stable (tmp tmp2 : String) (st st2 : St) (e : DirEntry)
    (st' : St) (evs : List Ev) (h : scanEntry tmp st e = .ok (st', evs))
    (hsub : ∀ k ∈ keysOf st'.manifestByTs, k ∈ keysOf st2.manifestByTs) :
    scanEntry tmp2 st2 e = .ok (st2, []) := by
  by_cases hsuf : e.suffix = ".json"
  · cases hstem : pyInt? e.stem with
    | none => simp [scanEntry, hsuf, hstem]
    | some ts0 =>
      by_cases hmem2 : ts0 ∈ keysOf st2.manifestByTs
      · simp [scanEntry, hsuf, hstem, hmem2]
      · cases hload : e.load with
        | none => simp [scanEntry, hsuf, hstem, hmem2, hload]
        | some m =>
          cases hdates : parsedDates m with
          | none => simp [scanEntry, hsuf, hstem, hmem2, hload, hdates]
          | some tr =>
            obtain ⟨epoch, ts, ets⟩ := tr
            exfalso
            by_cases hmem1 : ts0 ∈ keysOf st.manifestByTs
            · exact hmem2 (hsub ts0
                (scanEntry_keys_mono tmp st e st' evs h ts0 hmem1))
            · by_cases hround : pyRoundMilli ts = ts0
              · cases harch : e.archive with
                | none =>
                  simp [scanEntry, hsuf, hstem, hmem1, hload, hdates, hround,
                    harch] at h
                | some members =>
                  have hts0 : ts0 ∈ keysOf st'.manifestByTs := by
                    rcases scanEntry_ok_cases tmp st e st' evs h with ⟨rfl, -⟩ |
                      ⟨ts0', m', ep', ts', ets', mems', -, hstem', -, hload',
                        hdates', hround', -, hst', -⟩
                    · exfalso
                      simp [scanEntry, hsuf, hstem, hmem1, hload, hdates,
                        hround, harch] at h
                      exact absurd h.1 (by
                        intro hcontra
                        have := congrArg (fun l => l.manifestByTs.length) hcontra
                        simp at this)
                    · rw [hst']
                      have h0 : ts0 = ts0' := by
                        rw [hstem] at hstem'
                        simpa using hstem'
                      subst h0
                      simp [keysOf]
                  exact hmem2 (hsub ts0 hts0)
              · simp [scanEntry, hsuf, hstem, hmem1, hload, hdates, hround] at h
  · simp [scanEntry, hsuf]

theorem scanDir_stable (tmp tmp2 : String) (d : List DirEntry) : ∀ (st st2 : St),
    (scanDir tmp st d).err = none →
    (∀ k ∈ keysOf (scanDir tmp st d).st.manifestByTs,
        k ∈ keysOf st2.manifestByTs) →
    scanDir tmp2 st2 d = ⟨st2, [], none⟩ := by
  induction d with
  | nil => intro st st2 _ _; rfl
  | cons e es ih =>
    intro st st2 herr hsub
    cases hse : scanEntry tmp st e with
    | error err => exfalso; simp [scanDir, hse] at herr
    | ok p =>
      obtain ⟨st1, evs⟩ := p
      have herr' : (scanDir tmp st1 es).err = none := by
        simpa [scanDir, hse] using herr
      have hsub' : ∀ k ∈ keysOf (scanDir tmp st1 es).st.manifestByTs,
          k ∈ keysOf st2.manifestByTs := by
        intro k hk
        apply hsub
        simpa [scanDir, hse] using hk
      have hsub1 : ∀ k ∈ keysOf st1.manifestByTs, k ∈ keysOf st2.manifestByTs :=
        fun k hk => hsub' k (scanDir_keys_mono tmp es st1 k hk)
      have he2 : scanEntry tmp2 st2 e = .ok (st2, []) :=
        scanEntry_stable tmp tmp2 st st2 e st1 evs hse hsub1
      have hrest : scanDir tmp2 st2 es = ⟨st2, [], none⟩ := ih st1 st2 herr' hsub'
      simp [scanDir, he2, hrest]

/-- C4: a manifest whose timestamp key is already present is skipped with
no re-processing, no events and no state change; entries already stored
are never overwritten by any scan; and after an exception-free scan,
re-scanning the unchanged directory from the resulting state (in any later
cycle, with any scratch directory) changes nothing and emits nothing —
each distinct timestamp is registered at most once. -/
theorem c4_registration_idempotent :
    (∀ (tmp : String) (st : St) (e : DirEntry) (ts0 : ℤ),
        e.suffix = ".json" → pyInt? e.stem = some ts0 →
        ts0 ∈ keysOf st.manifestByTs → scanEntry tmp st e = .ok (st, []))
    ∧ (∀ (tmp : String) (st : St) (d : List DirEntry) (ts : ℤ) (m : RawManifest),
        st.manifestByTs.lookup ts = some m →
        (scanDir tmp st d).st.manifestByTs.lookup ts = some m)
    ∧ (∀ (tmp tmp2 : String) (st : St) (d : List DirEntry),
        (scanDir tmp st d).err = none →
        scanDir tmp2 (scanDir tmp st d).st d
          = ⟨(scanDir tmp st d).st, [], none⟩) := by
  refine ⟨?_, ?_, ?_⟩
  · intro tmp st e ts0 hsuf hstem hmem
    simp [scanEntry, hsuf, hstem, hmem]
  · intro tmp st d ts m h
    exact scanDir_lookup_preserved tmp d st ts m h
  · intro tmp tmp2 st d herr
    exact scanDir_stable tmp tmp2 d st _ herr (fun k hk => hk)

/-- Witness for C4: skipping an already-known timestamp, preservation of a
stored manifest, and idempotence of a two-entry scan. -/
theorem c4_registration_idempotent_witness :
    scanEntry "/b" (scanDir "/a" ⟨[], []⟩ [exEntry]).st exEntry
      = .ok ((scanDir "/a" ⟨[], []⟩ [exEntry]).st, [])
    ∧ (scanDir "/x" ⟨[(5, exManifest)], [(0, [5])]⟩ [exEntry]).st.manifestByTs.lookup 5
      = some exManifest
    ∧ scanDir "/b" (scanDir "/a" ⟨[], []⟩ [exEntry, goodEntry]).st
        [exEntry, goodEntry]
      = ⟨(scanDir "/a" ⟨[], []⟩ [exEntry, goodEntry]).st, [], none⟩ :=
  ⟨c4_registration_idempotent.1 "/b" (scanDir "/a" ⟨[], []⟩ [exEntry]).st exEntry
     1700000000000 rfl (by decide) (by decide),
   c4_registration_idempotent.2.1 "/x" ⟨[(5, exManifest)], [(0, [5])]⟩ [exEntry]
     5 exManifest (by decide),
   c4_registration_idempotent.2.2 "/a" "/b" ⟨[], []⟩ [exEntry, goodEntry]
     (by decide)⟩

/-- C8: every register event in a scan trace is immediately preceded by
the enqueue events of exactly that manifest's full upload job list: a
manifest is never registered before all its jobs have been enqueued. -/
theorem c8_jobs_enqueued_before_register (tmp : String) (st : St)
    (d : List DirEntry) (ts : ℤ)
    (h : Ev.register ts ∈ (scanDir tmp st d).evs) :
    ∃ e ∈ d, ∃ members pre post,
      pyInt? e.stem = some ts ∧ e.archive = some members
      ∧ (scanDir tmp st d).evs
          = pre ++ (entryJobs tmp ts e.stem members).map
              (fun j => Ev.enqueue j.1 j.2) ++ Ev.register ts :: post := by
  induction d generalizing st with
  | nil => simp [scanDir] at h
  | cons e es ih =>
    cases hse : scanEntry tmp st e with
    | error err => simp [scanDir, hse] at h
    | ok p =>
      obtain ⟨st1, evs⟩ := p
      have hd : (scanDir tmp st (e :: es)).evs
          = evs ++ (scanDir tmp st1 es).evs := by
        simp [scanDir, hse]
      rw [hd] at h
      rw [hd]
      rcases List.mem_append.mp h with h1 | h2
      · rcases scanEntry_ok_cases tmp st e st1 evs hse with ⟨-, rfl⟩ |
          ⟨ts0, m, ep, tts, ets, members, -, hstem, -, -, -, -, harch, -, hevs⟩
        · simp at h1
        · subst hevs
          have hts : ts = ts0 := by
            rcases List.mem_append.mp h1 with hx | hx
            · rcases List.mem_map.mp hx with ⟨j, -, hj⟩
              simp at hj
            · simpa using List.mem_singleton.mp hx
          subst hts
          exact ⟨e, by simp, members, [], (scanDir tmp st1 es).evs, hstem, harch,
            by simp [List.append_assoc]⟩
      · obtain ⟨e', he', members, pre, post, hstem', harch', hdecomp⟩ := ih st1 h2
        refine ⟨e', by simp [he'], members, evs ++ pre, post, hstem', harch', ?_⟩
        rw [hdecomp]
        simp [List.append_assoc]

/-- Witness for C8 at the example directory. -/
theorem c8_jobs_enqueued_before_register_witness :
    ∃ e ∈ [exEntry], ∃ members pre post,
      pyInt? e.stem = some 1700000000000 ∧ e.archive = some members
      ∧ (scanDir "/scratch" ⟨[], []⟩ [exEntry]).evs
          = pre ++ (entryJobs "/scratch" 1700000000000 e.stem members).map
              (fun j => Ev.enqueue j.1 j.2) ++ Ev.register 1700000000000 :: post :=
  c8_jobs_enqueued_before_register "/scratch" ⟨[], []⟩ [exEntry] 1700000000000
    (by decide)

/-- Scanning a concatenation with an exception-free prefix scans the
prefix and continues from its state. -/
theorem scanDir_append (tmp : String) (st : St) (d1 d2 : List DirEntry)
    (h : (scanDir tmp st d1).err = none) :
    scanDir tmp st (d1 ++ d2)
      = ⟨(scanDir tmp (scanDir tmp st d1).st d2).st,
         (scanDir tmp st d1).evs ++ (scanDir tmp (scanDir tmp st d1).st d2).evs,
         (scanDir tmp (scanDir tmp st d1).st d2).err⟩ := by
  induction d1 generalizing st with
  | nil => simp [scanDir]
  | cons e es ih =>
    cases hse : scanEntry tmp st e with
    | error err =>
      exfalso
      simp [scanDir, hse] at h
    | ok p =>
      obtain ⟨st1, evs⟩ := p
      have h' : (scanDir tmp st1 es).err = none := by
        simpa [scanDir, hse] using h
      simp [scanDir, hse, ih st1 h', List.append_assoc]

/-- C2 (counterexample): a directory whose first entry fails archive
extraction followed by a second, fully valid entry.  The first entry is
indeed not registered — but the second entry is not processed either: the
scan aborts with the zip exception and the valid manifest (which a scan of
it alone would register) is missing from the store and the trace. -/
theorem c2_counterexample :
    scanDir "/scratch" ⟨[], []⟩ [zipFailEntry, goodEntry]
      = ⟨⟨[], []⟩, [], some ScanErr.zipError⟩
    ∧ Ev.register 1700000001000 ∈ (scanDir "/scratch" ⟨[], []⟩ [goodEntry]).evs
    ∧ Ev.register 1700000001000
        ∉ (scanDir "/scratch" ⟨[], []⟩ [zipFailEntry, goodEntry]).evs
    ∧ (cycle "/scratch" ⟨[], []⟩ [zipFailEntry, goodEntry] "/c").exit
        = CycleExit.crashed := by
  refine ⟨by decide, by decide, by decide, by decide⟩

/-- C2 (amended): an exception while opening or extracting one manifest's
archive prevents that manifest from being registered this cycle, but it
also aborts the scan: the state and trace stay those of the entries before
it, the remaining entries are not processed, the cycle crashes (after its
`finally` drain and cleanup), and the process terminates with a critical
log and exit status 1. -/
theorem c2_extraction_failure_aborts_scan (tmp cache : String) (st : St)
    (d1 : List DirEntry) (e : DirEntry) (d2 : List DirEntry) (err : ScanErr)
    (h1 : (scanDir tmp st d1).err = none)
    (h2 : scanEntry tmp (scanDir tmp st d1).st e = .error err) :
    scanDir tmp st (d1 ++ e :: d2)
      = ⟨(scanDir tmp st d1).st, (scanDir tmp st d1).evs, some err⟩
    ∧ (cycle tmp st (d1 ++ e :: d2) cache).exit = CycleExit.crashed
    ∧ main cache st [⟨tmp, d1 ++ e :: d2⟩] = ⟨some 1, true⟩ := by
  have hs : scanDir tmp st (d1 ++ e :: d2)
      = ⟨(scanDir tmp st d1).st, (scanDir tmp st d1).evs, some err⟩ := by
    rw [scanDir_append tmp st d1 (e :: d2) h1]
    simp [scanDir, h2]
  refine ⟨hs, ?_, ?_⟩
  · simp [cycle, hs]
  · simp [main, run, cycle, hs]

/-- Witness for C2's amended statement: empty prefix, the failing entry,
then the valid entry. -/
theorem c2_extraction_failure_aborts_scan_witness :
    ((scanDir "/s" (St.mk [] []) []).err = none
     ∧ scanEntry "/s" (scanDir "/s" (St.mk [] []) []).st zipFailEntry
         = .error ScanErr.zipError)
    ∧ main "/c" ⟨[], []⟩ [⟨"/s", [] ++ zipFailEntry :: [goodEntry]⟩]
        = ⟨some 1, true⟩ :=
  ⟨⟨rfl, by rfl⟩,
   (c2_extraction_failure_aborts_scan "/s" "/c" ⟨[], []⟩ [] zipFailEntry
      [goodEntry] ScanErr.zipError rfl (by rfl)).2.2⟩

/-! Epoch selection and the published index (C3). -/

theorem setInsert_nodup (l : List ℤ) (x : ℤ) (h : l.Nodup) :
    (setInsert l x).Nodup := by
  unfold setInsert
  by_cases hx : x ∈ l
  · simpa [hx] using h
  · rw [if_neg hx]
    exact List.nodup_cons.mpr ⟨hx, h⟩

theorem setdefaultAdd_wf (l : List (ℤ × List ℤ)) (k v : ℤ)
    (h : ∀ p ∈ l, (p.2 : List ℤ).Nodup) :
    ∀ p ∈ setdefaultAdd l k v, (p.2 : List ℤ).Nodup := by
  induction l with
  | nil =>
    intro p hp
    simp only [setdefaultAdd, List.mem_singleton] at hp
    subst hp
    simp
  | cons q l ih =>
    obtain ⟨k', s⟩ := q
    intro p hp
    simp only [setdefaultAdd] at hp
    by_cases hk : k' = k
    · rw [if_pos hk] at hp
      rcases List.mem_cons.mp hp with rfl | hp
      · exact setInsert_nodup s v (h (k', s) (by simp))
      · exact h p (by simp [hp])
    · rw [if_neg hk] at hp
      rcases List.mem_cons.mp hp with rfl | hp
      · exact h (k', s) (by simp)
      · exact ih (fun p hp => h p (by simp [hp])) p hp

theorem scanEntry_wf (tmp : String) (st : St) (e : DirEntry) (st' : St)
    (evs : List Ev) (h : scanEntry tmp st e = .ok (st', evs))
    (hwf : EpochIndexWF st) : EpochIndexWF st' := by
  rcases scanEntry_ok_cases tmp st e st' evs h with ⟨rfl, -⟩ |
    ⟨ts0, m, ep, ts, ets, mems, -, -, -, -, -, -, -, hst', -⟩
  · exact hwf
  · intro p hp
    rw [hst'] at hp
    exact setdefaultAdd_wf st.timestampsByEpoch ep ts0 hwf p hp

theorem scanDir_wf (tmp : String) (d : List DirEntry) : ∀ (st : St),
    EpochIndexWF st → EpochIndexWF (scanDir tmp st d).st := by
  induction d with
  | nil => intro st hwf; simpa [scanDir] using hwf
  | cons e es ih =>
    intro st hwf
    cases hse : scanEntry tmp st e with
    | error err => simpa [scanDir, hse] using hwf
    | ok p =>
      obtain ⟨st1, evs⟩ := p
      have h1 := scanEntry_wf tmp st e st1 evs hse hwf
      simpa [scanDir, hse] using ih st1 h1

theorem maxKey?_spec {α : Type} (l : List (ℤ × α)) : ∀ (k : ℤ),
    maxKey? l = some k → k ∈ keysOf l ∧ ∀ k' ∈ keysOf l, k' ≤ k := by
  induction l with
  | nil => intro k h; simp [maxKey?] at h
  | cons p l ih =>
    obtain ⟨k0, v0⟩ := p
    intro k h
    cases hm : maxKey? l with
    | none =>
      have hl : l = [] := by
        cases l with
        | nil => rfl
        | cons q l' => simp [maxKey?] at hm
      subst hl
      simp only [maxKey?, Option.some.injEq] at h
      subst h
      simp [keysOf]
    | some mx =>
      simp only [maxKey?, hm, Option.some.injEq] at h
      subst h
      obtain ⟨hmem, hub⟩ := ih mx hm
      constructor
      · rcases le_total k0 mx with hle | hle
        · rw [max_eq_right hle]
          simp only [keysOf, List.map_cons, List.mem_cons]
          right
          exact hmem
        · rw [max_eq_left hle]
          simp [keysOf]
      · intro k' hk'
        simp only [keysOf, List.map_cons, List.mem_cons] at hk'
        rcases hk' with rfl | hk'
        · exact le_max_left _ _
        · exact le_trans (hub k' hk') (le_max_right _ _)

/-- C3: the epoch index stays well formed under scanning, and whenever
epoch selection succeeds it returns the maximum epoch key present together
with exactly the timestamps registered under it, rendered as strings from
an ascending, duplicate-free numeric list — so the published index is the
sorted, duplicate-free string list of the maximum epoch's timestamps. -/
theorem c3_published_index :
    (∀ (tmp : String) (st : St) (d : List DirEntry),
        EpochIndexWF st → EpochIndexWF (scanDir tmp st d).st)
    ∧ (∀ (st : St) (E : ℤ) (l : List String),
        EpochIndexWF st → selectCurrentEpoch st = some (E, l) →
        (E ∈ keysOf st.timestampsByEpoch
          ∧ ∀ k ∈ keysOf st.timestampsByEpoch, k ≤ E)
        ∧ ∃ nums : List ℤ,
            l = nums.map pyStr
            ∧ List.Sorted (· < ·) nums
            ∧ (∀ ts : ℤ, ts ∈ nums
                ↔ ts ∈ (st.timestampsByEpoch.lookup E).getD [])
            ∧ l.Nodup) := by
  refine ⟨fun tmp st d hwf => scanDir_wf tmp d st hwf, ?_⟩
  intro st E l hwf hsel
  unfold selectCurrentEpoch at hsel
  cases hmax : maxKey? st.timestampsByEpoch with
  | none => rw [hmax] at hsel; simp at hsel
  | some maxE =>
    rw [hmax] at hsel
    simp only [Option.some.injEq, Prod.mk.injEq] at hsel
    obtain ⟨hE, hl⟩ := hsel
    subst hE
    have hnodup : ((st.timestampsByEpoch.lookup maxE).getD []).Nodup := by
      cases hlk : st.timestampsByEpoch.lookup maxE with
      | none => simp [hlk]
      | some s =>
        have := hwf (maxE, s) (mem_of_lookup_eq_some _ _ _ hlk)
        simpa [hlk] using this
    have hperm : List.Perm
        (List.insertionSort (fun a b => a ≤ b)
          ((st.timestampsByEpoch.lookup maxE).getD []))
        ((st.timestampsByEpoch.lookup maxE).getD []) :=
      List.perm_insertionSort _ _
    have hnodupn : (List.insertionSort (fun a b => a ≤ b)
        ((st.timestampsByEpoch.lookup maxE).getD [])).Nodup :=
      (List.Perm.nodup_iff hperm).mpr hnodup
    have hsorted : (List.insertionSort (fun a b => a ≤ b)
        ((st.timestampsByEpoch.lookup maxE).getD [])).Sorted (· < ·) :=
      List.Sorted.lt_of_le (List.sorted_insertionSort _ _) hnodupn
    refine ⟨maxKey?_spec _ maxE hmax, ?_⟩
    refine ⟨List.insertionSort (fun a b => a ≤ b)
        ((st.timestampsByEpoch.lookup maxE).getD []),
      hl.symm, hsorted, fun ts => hperm.mem_iff, ?_⟩
    rw [← hl]
    exact List.Nodup.map pyStr_injective hnodupn

/-- Witness for C3 at a concrete two-epoch index. -/
theorem c3_published_index_witness :
    EpochIndexWF ⟨[], [(10, [7, 3]), (20, [9, 5])]⟩
    ∧ selectCurrentEpoch ⟨[], [(10, [7, 3]), (20, [9, 5])]⟩
        = some (20, ["5", "9"])
    ∧ (((20 : ℤ) ∈ keysOf ([(10, [7, 3]), (20, [9, 5])] :
            List (ℤ × List ℤ))
        ∧ ∀ k ∈ keysOf ([(10, [7, 3]), (20, [9, 5])] : List (ℤ × List ℤ)),
            k ≤ 20)
       ∧ ∃ nums : List ℤ,
           (["5", "9"] : List String) = nums.map pyStr
           ∧ List.Sorted (· < ·) nums
           ∧ (∀ ts : ℤ, ts ∈ nums
               ↔ ts ∈ ((([(10, [7, 3]), (20, [9, 5])] :
                   List (ℤ × List ℤ)).lookup 20).getD []))
           ∧ (["5", "9"] : List String).Nodup) :=
  ⟨by unfold EpochIndexWF; decide, by decide,
   c3_published_index.2 ⟨[], [(10, [7, 3]), (20, [9, 5])]⟩ 20 ["5", "9"]
     (by unfold EpochIndexWF; decide) (by decide)⟩

end Mmspd
